import Mathlib

/-!
Verification development for the admission/eviction policy core
(`src/policy.rs` of the stretto fork under review).

Key hashes (`u64`) are embedded as `Nat` (they are opaque fingerprints:
only equality is used).  Costs (`i64`) are embedded as `Int`; the policy
arithmetic never relies on wrap-around in the claims treated here, and
deltas cast to `u64` for the metrics sink are taken modulo `2^64`.

The count-min sketch (`sketch.rs`) and the bloom doorkeeper (`bbloom.rs`)
are not among the provided sources; they are modelled from the
specification (and, where the specification conflicts with the
repository's own tests, from the tests, as noted on the definitions).
Everything else is translated from `src/policy.rs`.
-/

set_option autoImplicit false

/-- Modelled from the spec: the metric kinds of the external metrics sink
(`metrics.rs` is not among the provided sources; the spec lists exactly
these seven kinds). -/
inductive MetricType where
  | KeyUpdate
  | CostAdd
  | CostEvict
  | KeyEvict
  | RejectSets
  | KeepGets
  | DropGets
  deriving DecidableEq, Repr

/-- Modelled from the spec: one call `metrics.add(kind, key, delta)` made to
the (optional) metrics sink; operations below return the list of such calls
they perform. -/
structure MetricEvent where
  kind : MetricType
  key : Nat
  delta : Nat
  deriving DecidableEq, Repr

/-- Cast of a (possibly negative) `i64` cost to the `u64` metric delta,
i.e. reduction modulo `2^64`. -/
def toU64 (c : Int) : Nat := (c % (2 ^ 64 : Int)).toNat

/-- Translated from `policy.rs`: `struct PolicyPair { key, cost }`. -/
structure PolicyPair where
  key : Nat
  cost : Int
  deriving DecidableEq, Repr

/-- Modelled from the spec: `ItemMeta` (defined in `cache.rs`, not among the
provided sources).  `add` builds victims with `ItemMeta::new(key, cost, 0)`;
the third constructor argument is kept as an opaque `Nat` field. -/
structure ItemMeta where
  key : Nat
  cost : Int
  flag : Nat
  deriving DecidableEq, Repr

/-- Modelled from the spec: the bloom-filter doorkeeper (`bbloom.rs` is not
among the provided sources).  The bit array and its hash functions are
abstracted to the exact set of inserted keys (the spec fixes only the
membership contract).  Note on `contains_or_add`: the spec's §4.1 text says
it returns the prior `contains`, but the repository's own tests
(`test_tinylfu_increment`: after three `increment(1)` the sketch estimate
is `2`) together with the comments in `TinyLFU::increment` pin the actual
return value to `true` iff the key was newly added, i.e. the negation of
the prior `contains`; the model follows the tests. -/
structure Bloom where
  keys : List Nat
  deriving DecidableEq, Repr

/-- Doorkeeper membership test. -/
def Bloom.contains (b : Bloom) (kh : Nat) : Bool := b.keys.contains kh

/-- Returns `true` iff `kh` was newly added (see the note on `Bloom`), and
unconditionally ensures all of `kh`'s bits are set afterwards. -/
def Bloom.contains_or_add (b : Bloom) (kh : Nat) : Bool × Bloom :=
  if b.contains kh then (false, b) else (true, Bloom.mk (kh :: b.keys))

/-- Clears all bits. -/
def Bloom.reset (_ : Bloom) : Bloom := Bloom.mk []

/-- Clears all bits (alias used by `TinyLFU::clear`). -/
def Bloom.clear (_ : Bloom) : Bloom := Bloom.mk []

/-- Modelled from the spec: fresh doorkeeper sized for `cap` insertions at
1% false-positive rate; the sizing only affects the (abstracted) bit
array, so the model starts from the empty key set. -/
def Bloom.new (_cap : Nat) : Bloom := Bloom.mk []

/-- A 4-bit saturating counter increment: add 1 if the cell is below 15. -/
def satInc (c : Fin 16) : Fin 16 :=
  if h : c.val < 15 then ⟨c.val + 1, by omega⟩ else c

/-- Halve a 4-bit counter (integer shift right by one). -/
def halveCtr (c : Fin 16) : Fin 16 := ⟨c.val / 2, by omega⟩

/-- Modelled from the spec: the 4-bit count-min sketch (`sketch.rs` is not
among the provided sources).  Four rows of 4-bit saturating cells; the
per-row hash mixers are abstracted to direct indexing by the key hash
(the spec leaves the mixers unspecified), and each cell is a `Fin 16`,
matching the packed 4-bit physical representation. -/
structure CountMinSketch where
  rows : Fin 4 → Nat → Fin 16

/-- Modelled from the spec: fresh sketch, all counters zero. -/
def CountMinSketch.new (_numCtrs : Nat) : CountMinSketch :=
  CountMinSketch.mk (fun _ _ => 0)

/-- Minimum over the four addressed counters, in `[0, 15]`. -/
def CountMinSketch.estimate (s : CountMinSketch) (kh : Nat) : Int :=
  ((min (min (s.rows 0 kh).val (s.rows 1 kh).val)
        (min (s.rows 2 kh).val (s.rows 3 kh).val) : Nat) : Int)

/-- For each row, saturating-increment the addressed counter. -/
def CountMinSketch.increment (s : CountMinSketch) (kh : Nat) : CountMinSketch :=
  CountMinSketch.mk (fun i j => if j = kh then satInc (s.rows i j) else s.rows i j)

/-- Halve every counter (the TinyLFU decay step). -/
def CountMinSketch.reset (s : CountMinSketch) : CountMinSketch :=
  CountMinSketch.mk (fun i j => halveCtr (s.rows i j))

/-- Zero every counter. -/
def CountMinSketch.clear (_ : CountMinSketch) : CountMinSketch :=
  CountMinSketch.mk (fun _ _ => 0)

/-- Translated from `policy.rs`: `struct TinyLFU { ctr, doorkeeper, samples, w }`. -/
structure TinyLFU where
  ctr : CountMinSketch
  doorkeeper : Bloom
  samples : Nat
  w : Nat

/-- Translated from `policy.rs`: `TinyLFU::new(num_ctrs)` (the error path for
`num_ctrs == 0` lives in the sketch constructor, which is not among the
provided sources, so the model takes the happy path). -/
def TinyLFU.new (numCtrs : Nat) : TinyLFU :=
  TinyLFU.mk (CountMinSketch.new numCtrs) (Bloom.new numCtrs) numCtrs 0

/-- Translated from `policy.rs`: `TinyLFU::estimate`. -/
def TinyLFU.estimate (t : TinyLFU) (kh : Nat) : Int :=
  if t.doorkeeper.contains kh then t.ctr.estimate kh + 1 else t.ctr.estimate kh

/-- Translated from `policy.rs`: `TinyLFU::reset`. -/
def TinyLFU.reset (t : TinyLFU) : TinyLFU :=
  TinyLFU.mk t.ctr.reset t.doorkeeper.reset t.samples 0

/-- Translated from `policy.rs`: `TinyLFU::try_reset`. -/
def TinyLFU.try_reset (t : TinyLFU) : TinyLFU :=
  if t.w + 1 ≥ t.samples then TinyLFU.mk t.ctr.reset t.doorkeeper.reset t.samples 0
  else TinyLFU.mk t.ctr t.doorkeeper t.samples (t.w + 1)

/-- Translated from `policy.rs`: `TinyLFU::increment`. -/
def TinyLFU.increment (t : TinyLFU) (kh : Nat) : TinyLFU :=
  let ca := t.doorkeeper.contains_or_add kh
  let t1 := TinyLFU.mk (if ca.1 then t.ctr else t.ctr.increment kh) ca.2 t.samples t.w
  t1.try_reset

/-- Translated from `policy.rs`: `TinyLFU::increments` (left-to-right over the batch). -/
def TinyLFU.increments (t : TinyLFU) (khs : List Nat) : TinyLFU :=
  khs.foldl TinyLFU.increment t

/-- Translated from `policy.rs`: `TinyLFU::clear`. -/
def TinyLFU.clear (t : TinyLFU) : TinyLFU :=
  TinyLFU.mk t.ctr.clear t.doorkeeper.clear t.samples 0

/-- Translated from `policy.rs`: `TinyLFU::contains`. -/
def TinyLFU.contains (t : TinyLFU) (kh : Nat) : Bool := t.doorkeeper.contains kh

/-- Lookup in the key→cost association list embedding the `HashMap<u64, i64>`. -/
def lookupKC (k : Nat) : List (Nat × Int) → Option Int
  | [] => none
  | p :: rest => if p.1 = k then some p.2 else lookupKC k rest

/-- Removal from the key→cost association list (`HashMap::remove`). -/
def removeKC (k : Nat) : List (Nat × Int) → List (Nat × Int)
  | [] => []
  | p :: rest => if p.1 = k then removeKC k rest else p :: removeKC k rest

/-- In-place value replacement in the key→cost association list
(the `get_mut` write in `SampledLFU::update`). -/
def setKC (k : Nat) (c : Int) : List (Nat × Int) → List (Nat × Int)
  | [] => []
  | p :: rest => if p.1 = k then (k, c) :: rest else p :: setKC k c rest

/-- Sum of the stored costs, `Σ key_costs.values()`. -/
def sumCosts (l : List (Nat × Int)) : Int := l.foldr (fun p s => p.2 + s) 0

/-- Translated from `policy.rs`: `struct SampledLFU { samples, max_cost, used,
key_costs }` (the optional metrics sink is represented by the event lists the
operations return). -/
structure SampledLFU where
  samples : Nat
  max_cost : Int
  used : Int
  key_costs : List (Nat × Int)
  deriving DecidableEq, Repr

/-- Translated from `policy.rs`: `SampledLFU::new` (`DEFAULT_SAMPLES = 5`). -/
def SampledLFU.new (maxCost : Int) : SampledLFU :=
  SampledLFU.mk 5 maxCost 0 []

/-- Translated from `policy.rs`: `SampledLFU::update_max_cost` (atomic store). -/
def SampledLFU.update_max_cost (l : SampledLFU) (mc : Int) : SampledLFU :=
  SampledLFU.mk l.samples mc l.used l.key_costs

/-- Translated from `policy.rs`: `SampledLFU::get_max_cost` (atomic load). -/
def SampledLFU.get_max_cost (l : SampledLFU) : Int := l.max_cost

/-- Translated from `policy.rs`: `SampledLFU::room_left`.  The source reads
`self.get_max_cost() - (self.used.fetch_add(cost, SeqCst) + cost)`:
`fetch_add` returns the previous value of `used` and adds `cost` to it, so
the call both returns `max_cost - (used + cost)` and mutates `used`.
The returned pair is (result, state after the call). -/
def SampledLFU.room_left (l : SampledLFU) (cost : Int) : Int × SampledLFU :=
  (l.get_max_cost - (l.used + cost),
   SampledLFU.mk l.samples l.max_cost (l.used + cost) l.key_costs)

/-- Translated from `policy.rs`: the iteration of `SampledLFU::fill_sample`
over the key→cost map: push pairs until the buffer holds at least `samples`
entries or the map is exhausted (the check follows each push). -/
def fillFrom (samples : Nat) : List (Nat × Int) → List PolicyPair → List PolicyPair
  | [], pairs => pairs
  | p :: rest, pairs =>
    if (pairs ++ [PolicyPair.mk p.1 p.2]).length ≥ samples then pairs ++ [PolicyPair.mk p.1 p.2]
    else fillFrom samples rest (pairs ++ [PolicyPair.mk p.1 p.2])

/-- Translated from `policy.rs`: `SampledLFU::fill_sample`.  The `HashMap`
iteration order is unspecified; the embedding iterates the association list
front to back. -/
def SampledLFU.fill_sample (l : SampledLFU) (pairs : List PolicyPair) : List PolicyPair :=
  if pairs.length ≥ l.samples then pairs else fillFrom l.samples l.key_costs pairs

/-- Translated from `policy.rs`: `SampledLFU::increment` — insert the pair and
add `cost` to `used` (unconditionally, even if the key was present). -/
def SampledLFU.increment (l : SampledLFU) (key : Nat) (cost : Int) : SampledLFU :=
  SampledLFU.mk l.samples l.max_cost (l.used + cost) ((key, cost) :: removeKC key l.key_costs)

/-- Translated from `policy.rs`: `SampledLFU::remove` — remove the entry and
subtract its cost from `used` iff it was present.  Returns (previous cost,
state after the call). -/
def SampledLFU.remove (l : SampledLFU) (kh : Nat) : Option Int × SampledLFU :=
  match lookupKC kh l.key_costs with
  | none => (none, l)
  | some cost =>
      (some cost, SampledLFU.mk l.samples l.max_cost (l.used - cost) (removeKC kh l.key_costs))

/-- Translated from `policy.rs`: `SampledLFU::clear`. -/
def SampledLFU.clear (l : SampledLFU) : SampledLFU :=
  SampledLFU.mk l.samples l.max_cost 0 []

/-- The `CostAdd` metric delta emitted by `SampledLFU::update`: for a cost
decrease the source sends `!((prev - cost) as u64 - 1)` (the bitwise
complement, i.e. the two's-complement encoding of the negative delta),
otherwise `(cost - prev) as u64`. -/
def updateDelta (prev cost : Int) : Nat :=
  if prev > cost then (2 ^ 64 - 1) - (toU64 (prev - cost) - 1) else toU64 (cost - prev)

/-- Translated from `policy.rs`: `SampledLFU::update`.  Returns (whether the
key was present, state after the call, metric calls made). -/
def SampledLFU.update (l : SampledLFU) (k : Nat) (cost : Int) :
    Bool × SampledLFU × List MetricEvent :=
  match lookupKC k l.key_costs with
  | none => (false, l, [])
  | some prev =>
      (true,
       SampledLFU.mk l.samples l.max_cost (l.used + (cost - prev)) (setKC k cost l.key_costs),
       [MetricEvent.mk MetricType.KeyUpdate k 1,
        MetricEvent.mk MetricType.CostAdd k (updateDelta prev cost)])

/-- Translated from `policy.rs`: `struct PolicyInner { admit, costs }` (the
`admit` field is renamed `admission` here for Lean-side hygiene). -/
structure PolicyInner where
  admission : TinyLFU
  costs : SampledLFU

/-- The accumulator of the min-scan in `LFUPolicy::add`: the four mutable
locals `(min_key, min_hits, min_id, min_cost)`. -/
structure MinAcc where
  min_key : Nat
  min_hits : Int
  min_id : Nat
  min_cost : Int
  deriving DecidableEq, Repr

/-- `i64::MAX`, the initial `min_hits`. -/
def i64MAX : Int := 9223372036854775807

/-- One step of the min-scan: keep the candidate with strictly fewer hits. -/
def scanStep (tlfu : TinyLFU) (idx : Nat) (p : PolicyPair) (acc : MinAcc) : MinAcc :=
  if tlfu.estimate p.key < acc.min_hits then MinAcc.mk p.key (tlfu.estimate p.key) idx p.cost
  else acc

/-- The indexed fold of the min-scan over the sample buffer. -/
def scanFrom (tlfu : TinyLFU) : Nat → List PolicyPair → MinAcc → MinAcc
  | _, [], acc => acc
  | idx, p :: rest, acc => scanFrom tlfu (idx + 1) rest (scanStep tlfu idx p acc)

/-- Translated from `policy.rs`: the `sample.iter().enumerate().for_each`
min-scan in `LFUPolicy::add`, starting from `(0, i64::MAX, 0, 0)`. -/
def scanMin (tlfu : TinyLFU) (sample : List PolicyPair) : MinAcc :=
  scanFrom tlfu 0 sample (MinAcc.mk 0 i64MAX 0 0)

/-- Translated from `policy.rs`: the victim deletion from the sample buffer
(`sample[min_id] = sample[new_len]; sample.drain(new_len..)`), i.e. replace
position `i` by the last element and drop the last slot. -/
def swapRemove (l : List PolicyPair) (i : Nat) : List PolicyPair :=
  (l.set i (l.getD (l.length - 1) (PolicyPair.mk 0 0))).take (l.length - 1)

/-- Translated from `policy.rs`: the eviction `while room < 0` loop of
`LFUPolicy::add`, with an explicit fuel parameter to make the recursion
structural (`none` means the fuel ran out; `addLoop_isSome` below shows the
fuel used by `LFUPolicy.add` always suffices).  The result is
((victims option, admitted), policy state, metric calls). -/
def addLoop (key : Nat) (cost : Int) (incHits : Int) :
    Nat → PolicyInner → List PolicyPair → List ItemMeta → Int → List MetricEvent →
    Option ((Option (List ItemMeta) × Bool) × PolicyInner × List MetricEvent)
  | 0, _, _, _, _, _ => none
  | fuel + 1, inner, sample, victims, room, evs =>
    if room < 0 then
      if incHits < (scanMin inner.admission (inner.costs.fill_sample sample)).min_hits then
        some ((none, false), inner, evs ++ [MetricEvent.mk MetricType.RejectSets key 1])
      else
        addLoop key cost incHits fuel
          (PolicyInner.mk inner.admission
            ((inner.costs.remove
                (scanMin inner.admission (inner.costs.fill_sample sample)).min_key).2.room_left
              cost).2)
          (swapRemove (inner.costs.fill_sample sample)
            (scanMin inner.admission (inner.costs.fill_sample sample)).min_id)
          (victims ++
            [ItemMeta.mk (scanMin inner.admission (inner.costs.fill_sample sample)).min_key
              (scanMin inner.admission (inner.costs.fill_sample sample)).min_cost 0])
          ((inner.costs.remove
              (scanMin inner.admission (inner.costs.fill_sample sample)).min_key).2.room_left
            cost).1
          evs
    else
      some ((some victims, true), PolicyInner.mk inner.admission (inner.costs.increment key cost),
        evs ++ [MetricEvent.mk MetricType.CostAdd key (toU64 cost)])

/-- The fuel `LFUPolicy.add` hands to the eviction loop (shown sufficient by
`addLoop_isSome`). -/
def addFuel (costs : SampledLFU) : Nat :=
  (costs.samples + 1) * costs.key_costs.length + 1

/-- Translated from `policy.rs`: `LFUPolicy::add`.  Pure-state rendering of
the locked section: the result is `some ((victims option, admitted), new
policy state, metric calls made)`; `none` would mean the eviction loop ran
out of fuel, which `add_terminates` rules out. -/
def LFUPolicy.add (inner : PolicyInner) (key : Nat) (cost : Int) :
    Option ((Option (List ItemMeta) × Bool) × PolicyInner × List MetricEvent) :=
  if cost > inner.costs.get_max_cost then some ((none, false), inner, [])
  else
    let upd := inner.costs.update key cost
    if upd.1 then some ((none, false), PolicyInner.mk inner.admission upd.2.1, upd.2.2)
    else
      let rl := upd.2.1.room_left cost
      if rl.1 ≥ 0 then
        some ((none, true), PolicyInner.mk inner.admission (rl.2.increment key cost),
          [MetricEvent.mk MetricType.CostAdd key (toU64 cost)])
      else
        addLoop key cost (inner.admission.estimate key) (addFuel rl.2)
          (PolicyInner.mk inner.admission rl.2) [] [] rl.1 []

/-- State of the ingestion channel as seen by the `select!` in
`LFUPolicy::push`: the send either completes, fails on a disconnected
channel, or would block (the `default` arm). -/
inductive ChanState where
  | ready
  | full
  | disconnected
  deriving DecidableEq, Repr

/-- Translated from `policy.rs`: `LFUPolicy::push`.  Result is (the
`Result<bool>` value, the batch handed to the channel if any, metric calls
made).  `Except.error` renders the `SendError` case. -/
def LFUPolicy.push (isClosed : Bool) (chan : ChanState) (keys : List Nat) :
    Except Unit Bool × Option (List Nat) × List MetricEvent :=
  if isClosed then (Except.ok false, none, [])
  else if keys.length = 0 then (Except.ok true, none, [])
  else
    match chan with
    | ChanState.ready =>
        (Except.ok true, some keys,
         [MetricEvent.mk MetricType.KeepGets (keys.headD 0) keys.length])
    | ChanState.disconnected => (Except.error (), none, [])
    | ChanState.full =>
        (Except.ok false, none,
         [MetricEvent.mk MetricType.DropGets (keys.headD 0) keys.length])

/-- The sketch estimate is a 4-bit value: it lies in `[0, 15]`. -/
lemma ctr_estimate_bounds (s : CountMinSketch) (kh : Nat) :
    0 ≤ s.estimate kh ∧ s.estimate kh ≤ 15 := by
  unfold CountMinSketch.estimate
  constructor
  · exact Int.ofNat_nonneg _
  · have h0 := (s.rows 0 kh).isLt
    have h2 := (s.rows 2 kh).isLt
    have hmin : min (min (s.rows 0 kh).val (s.rows 1 kh).val)
        (min (s.rows 2 kh).val (s.rows 3 kh).val) ≤ 15 := by
      have := Nat.min_le_left (s.rows 0 kh).val (s.rows 1 kh).val
      have := Nat.min_le_left (min (s.rows 0 kh).val (s.rows 1 kh).val)
        (min (s.rows 2 kh).val (s.rows 3 kh).val)
      omega
    exact_mod_cast Nat.le_of_lt_succ (Nat.lt_succ_of_le hmin)

/-- The TinyLFU estimate lies in `[0, 16]`. -/
lemma tiny_estimate_bounds (t : TinyLFU) (kh : Nat) :
    0 ≤ t.estimate kh ∧ t.estimate kh ≤ 16 := by
  have h := ctr_estimate_bounds t.ctr kh
  unfold TinyLFU.estimate
  by_cases hdk : t.doorkeeper.contains kh <;> simp [hdk] <;> omega

/-- The TinyLFU estimate is far below `i64::MAX`. -/
lemma tiny_estimate_lt_max (t : TinyLFU) (kh : Nat) : t.estimate kh < i64MAX := by
  have h := tiny_estimate_bounds t kh
  unfold i64MAX
  omega

/-- Setting commutes with taking a prefix (a set at or past the cut is
invisible on both sides). -/
lemma take_set {α : Type} (a : α) :
    ∀ (l : List α) (i n : Nat), (l.set i a).take n = (l.take n).set i a
  | [], i, n => by simp
  | _ :: _, _, 0 => by simp
  | x :: t, 0, n + 1 => by simp
  | x :: t, i + 1, n + 1 => by
      simp only [List.set_cons_succ, List.take_succ_cons]
      rw [take_set a t i n]

/-- Setting at or past the end of a list is the identity. -/
lemma set_ge_length {α : Type} (a : α) :
    ∀ (l : List α) (i : Nat), l.length ≤ i → l.set i a = l
  | [], _, _ => by simp
  | x :: t, i + 1, h => by
      simp only [List.set_cons_succ]
      rw [set_ge_length a t i (by simpa using h)]

/-- `getD` only looks below the prefix cut. -/
lemma getD_take {α : Type} (d : α) :
    ∀ (l : List α) (n i : Nat), i < n → (l.take n).getD i d = l.getD i d
  | [], _, _, _ => by simp
  | x :: t, n + 1, 0, _ => by simp
  | x :: t, n + 1, i + 1, h => by
      simp only [List.take_succ_cons, List.getD_cons_succ]
      exact getD_take d t n i (by omega)

/-- A non-empty list splits off its last element. -/
lemma take_concat_getD {α : Type} (d : α) :
    ∀ (l : List α), l ≠ [] → l = l.take (l.length - 1) ++ [l.getD (l.length - 1) d]
  | [], h => absurd rfl h
  | [x], _ => by simp
  | x :: y :: t, _ => by
      have ih := take_concat_getD d (y :: t) (by simp)
      simp only [List.length_cons, Nat.add_sub_cancel] at ih ⊢
      simp only [List.take_succ_cons, List.getD_cons_succ]
      conv_lhs => rw [show (x :: y :: t : List α) = x :: (y :: t) from rfl, ih]
      simp

/-- Replacing one element exchanges its contribution to `countP`. -/
lemma countP_set {α : Type} (P : α → Bool) (a d : α) :
    ∀ (l : List α) (i : Nat), i < l.length →
      (l.set i a).countP P + (if P (l.getD i d) then 1 else 0) =
        l.countP P + (if P a then 1 else 0)
  | [], i, h => by simp at h
  | x :: t, 0, _ => by
      simp only [List.set_cons_zero, List.getD_cons_zero, List.countP_cons]
      omega
  | x :: t, i + 1, h => by
      have ih := countP_set P a d t i (by simpa using h)
      simp only [List.set_cons_succ, List.getD_cons_succ, List.countP_cons]
      omega

/-- Swap-removal of position `i` removes exactly that element's contribution
to `countP`. -/
lemma countP_swapRemove (P : PolicyPair → Bool) (l : List PolicyPair) (i : Nat)
    (h : i < l.length) :
    (swapRemove l i).countP P + (if P (l.getD i (PolicyPair.mk 0 0)) then 1 else 0) =
      l.countP P := by
  have hne : l ≠ [] := by intro he; rw [he] at h; simp at h
  have hsingle : ∀ a : PolicyPair, List.countP P [a] = if P a then 1 else 0 := by
    intro a
    rw [List.countP_cons, List.countP_nil]
    omega
  have hcount : l.countP P = (l.take (l.length - 1)).countP P +
      (if P (l.getD (l.length - 1) (PolicyPair.mk 0 0)) then 1 else 0) := by
    conv_lhs => rw [take_concat_getD (PolicyPair.mk 0 0) l hne]
    rw [List.countP_append, hsingle]
  have hlentake : (l.take (l.length - 1)).length = l.length - 1 := by
    rw [List.length_take]
    omega
  unfold swapRemove
  rw [take_set]
  by_cases hi : i < l.length - 1
  · have hset := countP_set P (l.getD (l.length - 1) (PolicyPair.mk 0 0))
      (PolicyPair.mk 0 0) (l.take (l.length - 1)) i (by omega)
    rw [getD_take (PolicyPair.mk 0 0) l (l.length - 1) i hi] at hset
    omega
  · have hieq : i = l.length - 1 := by omega
    rw [set_ge_length _ (l.take (l.length - 1)) i (by omega), hieq]
    omega

/-- Swap-removal shortens the buffer by one. -/
lemma length_swapRemove (l : List PolicyPair) (i : Nat) (h : i < l.length) :
    (swapRemove l i).length = l.length - 1 := by
  unfold swapRemove
  rw [List.length_take, List.length_set]
  omega

/-- A sample entry is stale w.r.t. a key→cost map when its key is no longer
mapped (such entries arise when eviction removes a key that still has copies
in the sample buffer). -/
def staleP (m : List (Nat × Int)) (p : PolicyPair) : Bool := (lookupKC p.key m).isNone

/-- A pair present in the map has a successful lookup. -/
lemma lookupKC_isSome_of_mem :
    ∀ (m : List (Nat × Int)) (p : Nat × Int), p ∈ m → (lookupKC p.1 m).isSome = true
  | [], p, h => by simp at h
  | q :: rest, p, h => by
      rcases List.mem_cons.mp h with rfl | h'
      · unfold lookupKC; simp
      · unfold lookupKC
        by_cases hq : q.1 = p.1
        · simp [hq]
        · simp only [hq, if_false]
          exact lookupKC_isSome_of_mem rest p h'

/-- `fillFrom` never grows the buffer past `samples` (when it starts below). -/
lemma fillFrom_length (samples : Nat) :
    ∀ (kcs : List (Nat × Int)) (pairs : List PolicyPair),
      pairs.length < samples → (fillFrom samples kcs pairs).length ≤ samples
  | [], pairs, h => by unfold fillFrom; omega
  | q :: rest, pairs, h => by
      unfold fillFrom
      by_cases hge : (pairs ++ [PolicyPair.mk q.1 q.2]).length ≥ samples
      · rw [if_pos hge]
        simp only [List.length_append, List.length_cons, List.length_nil] at hge ⊢
        omega
      · rw [if_neg hge]
        exact fillFrom_length samples rest _ (by omega)

/-- `fill_sample` keeps the buffer within `samples` entries. -/
lemma fill_sample_length (l : SampledLFU) (pairs : List PolicyPair)
    (h : pairs.length ≤ l.samples) : (l.fill_sample pairs).length ≤ l.samples := by
  unfold SampledLFU.fill_sample
  by_cases hge : pairs.length ≥ l.samples
  · rw [if_pos hge]; exact h
  · rw [if_neg hge]; exact fillFrom_length l.samples l.key_costs pairs (by omega)

/-- Entries pushed by `fillFrom` out of the live map are never stale, so the
stale count of the buffer is unchanged. -/
lemma fillFrom_countP (m : List (Nat × Int)) (samples : Nat) :
    ∀ (kcs : List (Nat × Int)) (pairs : List PolicyPair),
      (∀ p ∈ kcs, (lookupKC p.1 m).isSome = true) →
      (fillFrom samples kcs pairs).countP (staleP m) = pairs.countP (staleP m)
  | [], pairs, _ => by unfold fillFrom; rfl
  | q :: rest, pairs, hmem => by
      have hfresh : staleP m (PolicyPair.mk q.1 q.2) = false := by
        unfold staleP
        have h1 := hmem q (List.mem_cons_self q rest)
        cases hlk : lookupKC q.1 m with
        | none => rw [hlk] at h1; simp at h1
        | some c => simp [hlk]
      have happ : (pairs ++ [PolicyPair.mk q.1 q.2]).countP (staleP m) =
          pairs.countP (staleP m) := by
        rw [List.countP_append, List.countP_cons, List.countP_nil, hfresh]
        simp
      unfold fillFrom
      by_cases hge : (pairs ++ [PolicyPair.mk q.1 q.2]).length ≥ samples
      · rw [if_pos hge]; exact happ
      · rw [if_neg hge]
        rw [fillFrom_countP m samples rest _ (fun p hp => hmem p (List.mem_cons_of_mem q hp))]
        exact happ

/-- `fill_sample` does not change the number of stale entries (w.r.t. the
very map it draws from). -/
lemma fill_sample_countP (l : SampledLFU) (pairs : List PolicyPair) :
    (l.fill_sample pairs).countP (staleP l.key_costs) = pairs.countP (staleP l.key_costs) := by
  unfold SampledLFU.fill_sample
  by_cases hge : pairs.length ≥ l.samples
  · rw [if_pos hge]
  · rw [if_neg hge]
    exact fillFrom_countP l.key_costs l.samples l.key_costs pairs
      (fun p hp => lookupKC_isSome_of_mem l.key_costs p hp)

/-- Removing a key never lengthens the map. -/
lemma length_removeKC_le (k : Nat) :
    ∀ (l : List (Nat × Int)), (removeKC k l).length ≤ l.length
  | [] => by unfold removeKC; simp
  | p :: rest => by
      unfold removeKC
      by_cases hp : p.1 = k
      · rw [if_pos hp]
        have := length_removeKC_le k rest
        simp only [List.length_cons]
        omega
      · rw [if_neg hp]
        have := length_removeKC_le k rest
        simp only [List.length_cons]
        omega

/-- Removing a present key strictly shortens the map. -/
lemma length_removeKC_lt (k : Nat) :
    ∀ (l : List (Nat × Int)) (c : Int),
      lookupKC k l = some c → (removeKC k l).length < l.length
  | [], c, h => by simp [lookupKC] at h
  | p :: rest, c, h => by
      unfold removeKC
      unfold lookupKC at h
      by_cases hp : p.1 = k
      · rw [if_pos hp]
        have := length_removeKC_le k rest
        simp only [List.length_cons]
        omega
      · rw [if_neg hp] at h ⊢
        have := length_removeKC_lt k rest c h
        simp only [List.length_cons]
        omega

/-- Full characterization of the min-scan fold: either the accumulator
survives (it is at most every estimate in the list), or the result is the
first entry of the list realizing the strict minimum of the estimates below
the accumulator. -/
lemma scanFrom_spec (tlfu : TinyLFU) (l : List PolicyPair) :
    ∀ (idx : Nat) (acc : MinAcc),
      (scanFrom tlfu idx l acc = acc ∧ ∀ p ∈ l, acc.min_hits ≤ tlfu.estimate p.key) ∨
      (∃ j, j < l.length ∧
        scanFrom tlfu idx l acc =
          MinAcc.mk (l.getD j (PolicyPair.mk 0 0)).key
            (tlfu.estimate (l.getD j (PolicyPair.mk 0 0)).key) (idx + j)
            (l.getD j (PolicyPair.mk 0 0)).cost ∧
        tlfu.estimate (l.getD j (PolicyPair.mk 0 0)).key < acc.min_hits ∧
        (∀ p ∈ l, tlfu.estimate (l.getD j (PolicyPair.mk 0 0)).key ≤ tlfu.estimate p.key) ∧
        (∀ m, m < j → tlfu.estimate (l.getD j (PolicyPair.mk 0 0)).key <
          tlfu.estimate (l.getD m (PolicyPair.mk 0 0)).key)) := by
  induction l with
  | nil =>
      intro idx acc
      left
      exact ⟨rfl, by simp⟩
  | cons p rest ih =>
      intro idx acc
      have hunf : scanFrom tlfu idx (p :: rest) acc
          = scanFrom tlfu (idx + 1) rest (scanStep tlfu idx p acc) := rfl
      by_cases hp : tlfu.estimate p.key < acc.min_hits
      · have hstep : scanStep tlfu idx p acc
            = MinAcc.mk p.key (tlfu.estimate p.key) idx p.cost := by
          unfold scanStep
          rw [if_pos hp]
        rcases ih (idx + 1) (MinAcc.mk p.key (tlfu.estimate p.key) idx p.cost) with
          ⟨heq, hall⟩ | ⟨j, hj, heq, hlt, hall, hfirst⟩
        · right
          refine ⟨0, by simp, ?_, ?_, ?_, ?_⟩
          · rw [hunf, hstep, heq]
            simp
          · simpa using hp
          · intro q hq
            rcases List.mem_cons.mp hq with rfl | hq'
            · simp
            · simpa using hall q hq'
          · intro m hm
            exact absurd hm (Nat.not_lt_zero m)
        · right
          refine ⟨j + 1, by simpa using Nat.succ_lt_succ hj, ?_, ?_, ?_, ?_⟩
          · rw [hunf, hstep, heq]
            have hidx : idx + 1 + j = idx + (j + 1) := by omega
            simp [List.getD_cons_succ, hidx]
          · simp only [List.getD_cons_succ]
            calc tlfu.estimate (rest.getD j (PolicyPair.mk 0 0)).key
                < tlfu.estimate p.key := by simpa using hlt
              _ < acc.min_hits := hp
          · intro q hq
            simp only [List.getD_cons_succ]
            rcases List.mem_cons.mp hq with rfl | hq'
            · exact le_of_lt (by simpa using hlt)
            · exact hall q hq'
          · intro m hm
            cases m with
            | zero =>
                simp only [List.getD_cons_succ, List.getD_cons_zero]
                exact (by simpa using hlt)
            | succ m' =>
                simp only [List.getD_cons_succ]
                exact hfirst m' (by omega)
      · have hstep : scanStep tlfu idx p acc = acc := by
          unfold scanStep
          rw [if_neg hp]
        rcases ih (idx + 1) acc with ⟨heq, hall⟩ | ⟨j, hj, heq, hlt, hall, hfirst⟩
        · left
          refine ⟨by rw [hunf, hstep, heq], ?_⟩
          intro q hq
          rcases List.mem_cons.mp hq with rfl | hq'
          · exact not_lt.mp hp
          · exact hall q hq'
        · right
          refine ⟨j + 1, by simpa using Nat.succ_lt_succ hj, ?_, ?_, ?_, ?_⟩
          · rw [hunf, hstep, heq]
            have hidx : idx + 1 + j = idx + (j + 1) := by omega
            simp [List.getD_cons_succ, hidx]
          · simpa only [List.getD_cons_succ] using hlt
          · intro q hq
            simp only [List.getD_cons_succ]
            rcases List.mem_cons.mp hq with rfl | hq'
            · exact le_of_lt (lt_of_lt_of_le hlt (not_lt.mp hp))
            · exact hall q hq'
          · intro m hm
            cases m with
            | zero =>
                simp only [List.getD_cons_succ, List.getD_cons_zero]
                exact lt_of_lt_of_le hlt (not_lt.mp hp)
            | succ m' =>
                simp only [List.getD_cons_succ]
                exact hfirst m' (by omega)

/-- Realization of the min-scan result: whenever the resulting `min_hits` is
below its `i64::MAX` seed, the scan selected an actual entry of the buffer —
the first one attaining the minimal TinyLFU estimate. -/
lemma scanMin_spec (tlfu : TinyLFU) (sample : List PolicyPair)
    (hlt : (scanMin tlfu sample).min_hits < i64MAX) :
    ∃ j, j < sample.length ∧
      (scanMin tlfu sample).min_id = j ∧
      (scanMin tlfu sample).min_key = (sample.getD j (PolicyPair.mk 0 0)).key ∧
      (scanMin tlfu sample).min_cost = (sample.getD j (PolicyPair.mk 0 0)).cost ∧
      (scanMin tlfu sample).min_hits =
        tlfu.estimate (sample.getD j (PolicyPair.mk 0 0)).key ∧
      (∀ p ∈ sample, (scanMin tlfu sample).min_hits ≤ tlfu.estimate p.key) ∧
      (∀ m, m < j → (scanMin tlfu sample).min_hits <
        tlfu.estimate (sample.getD m (PolicyPair.mk 0 0)).key) := by
  rcases scanFrom_spec tlfu sample 0 (MinAcc.mk 0 i64MAX 0 0) with
    ⟨heq, _⟩ | ⟨j, hj, heq, _, hall, hfirst⟩
  · exfalso
    have : (scanMin tlfu sample).min_hits = i64MAX := by
      unfold scanMin
      rw [heq]
    omega
  · have hmin : scanMin tlfu sample =
        MinAcc.mk (sample.getD j (PolicyPair.mk 0 0)).key
          (tlfu.estimate (sample.getD j (PolicyPair.mk 0 0)).key) j
          (sample.getD j (PolicyPair.mk 0 0)).cost := by
      unfold scanMin
      rw [heq]
      simp
    refine ⟨j, hj, ?_, ?_, ?_, ?_, ?_, ?_⟩
    · rw [hmin]
    · rw [hmin]
    · rw [hmin]
    · rw [hmin]
    · intro q hq
      rw [hmin]
      exact hall q hq
    · intro m hm
      rw [hmin]
      exact hfirst m hm

/-- Sufficient fuel for the eviction loop.  Measure argument: each iteration
that does not return either removes a live key from the map (strictly
shrinking it, while creating at most `samples - 1` newly stale buffer
entries) or removes a stale entry from the buffer; stale entries are never
created by `fill_sample`, so
`(samples + 1) * |key_costs| + (stale entries in buffer)` strictly
decreases. -/
lemma addLoop_isSome (key : Nat) (cost : Int) (incHits : Int) (hinc : incHits < i64MAX) :
    ∀ (fuel : Nat) (tlfu : TinyLFU) (costs : SampledLFU) (sample : List PolicyPair)
      (victims : List ItemMeta) (room : Int) (evs : List MetricEvent),
      sample.length ≤ costs.samples →
      (costs.samples + 1) * costs.key_costs.length +
          sample.countP (staleP costs.key_costs) < fuel →
      (addLoop key cost incHits fuel (PolicyInner.mk tlfu costs) sample victims room
        evs).isSome = true := by
  intro fuel
  induction fuel with
  | zero =>
      intro tlfu costs sample victims room evs _ hfuel
      omega
  | succ fuel ih =>
      intro tlfu costs sample victims room evs hlen hfuel
      simp only [addLoop]
      by_cases hroom : room < 0
      · rw [if_pos hroom]
        by_cases hrej :
            incHits < (scanMin tlfu (costs.fill_sample sample)).min_hits
        · rw [if_pos hrej]
          simp
        · rw [if_neg hrej]
          have hminlt : (scanMin tlfu (costs.fill_sample sample)).min_hits < i64MAX :=
            lt_of_le_of_lt (not_lt.mp hrej) hinc
          rcases scanMin_spec tlfu (costs.fill_sample sample) hminlt with
            ⟨j, hj, hid, hkey, _, _, _, _⟩
          have hs1len : (costs.fill_sample sample).length ≤ costs.samples :=
            fill_sample_length costs sample hlen
          have hs1stale : (costs.fill_sample sample).countP (staleP costs.key_costs) =
              sample.countP (staleP costs.key_costs) :=
            fill_sample_countP costs sample
          have hidlt : (scanMin tlfu (costs.fill_sample sample)).min_id <
              (costs.fill_sample sample).length := by omega
          have hS2len : (swapRemove (costs.fill_sample sample)
              (scanMin tlfu (costs.fill_sample sample)).min_id).length =
              (costs.fill_sample sample).length - 1 :=
            length_swapRemove _ _ hidlt
          cases hlk : lookupKC (scanMin tlfu (costs.fill_sample sample)).min_key
              costs.key_costs with
          | none =>
              have hC : (costs.remove
                  (scanMin tlfu (costs.fill_sample sample)).min_key).2 = costs := by
                simp [SampledLFU.remove, hlk]
              have hsw := countP_swapRemove (staleP costs.key_costs)
                (costs.fill_sample sample)
                (scanMin tlfu (costs.fill_sample sample)).min_id hidlt
              have hstale : staleP costs.key_costs
                  ((costs.fill_sample sample).getD
                    (scanMin tlfu (costs.fill_sample sample)).min_id
                    (PolicyPair.mk 0 0)) = true := by
                unfold staleP
                rw [hid, ← hkey, hlk]
                rfl
              rw [hstale] at hsw
              simp only [if_true] at hsw
              rw [hC]
              have hroomfields : ((costs.room_left cost).2.samples = costs.samples) ∧
                  ((costs.room_left cost).2.key_costs = costs.key_costs) := by
                simp [SampledLFU.room_left]
              apply ih
              · rw [hroomfields.1, hS2len]
                omega
              · rw [hroomfields.1, hroomfields.2]
                omega
          | some c =>
              have hC : (costs.remove
                  (scanMin tlfu (costs.fill_sample sample)).min_key).2 =
                  SampledLFU.mk costs.samples costs.max_cost (costs.used - c)
                    (removeKC (scanMin tlfu (costs.fill_sample sample)).min_key
                      costs.key_costs) := by
                simp [SampledLFU.remove, hlk]
              have hmlt := length_removeKC_lt
                (scanMin tlfu (costs.fill_sample sample)).min_key costs.key_costs c hlk
              rw [hC]
              have hroomfields : (((SampledLFU.mk costs.samples costs.max_cost
                    (costs.used - c)
                    (removeKC (scanMin tlfu (costs.fill_sample sample)).min_key
                      costs.key_costs)).room_left cost).2.samples = costs.samples) ∧
                  (((SampledLFU.mk costs.samples costs.max_cost (costs.used - c)
                    (removeKC (scanMin tlfu (costs.fill_sample sample)).min_key
                      costs.key_costs)).room_left cost).2.key_costs =
                    removeKC (scanMin tlfu (costs.fill_sample sample)).min_key
                      costs.key_costs) := by
                simp [SampledLFU.room_left]
              have hstlen := List.countP_le_length
                (p := staleP (removeKC (scanMin tlfu (costs.fill_sample sample)).min_key
                  costs.key_costs))
                (l := swapRemove (costs.fill_sample sample)
                  (scanMin tlfu (costs.fill_sample sample)).min_id)
              have hmul : (costs.samples + 1) *
                  (removeKC (scanMin tlfu (costs.fill_sample sample)).min_key
                    costs.key_costs).length ≤
                  (costs.samples + 1) * (costs.key_costs.length - 1) :=
                Nat.mul_le_mul_left _ (by omega)
              have hexp : (costs.samples + 1) * costs.key_costs.length =
                  (costs.samples + 1) * (costs.key_costs.length - 1) +
                    (costs.samples + 1) := by
                have hm : costs.key_costs.length = (costs.key_costs.length - 1) + 1 := by
                  omega
                conv_lhs => rw [hm]
                rw [Nat.mul_succ]
              apply ih
              · rw [hroomfields.1, hS2len]
                omega
              · rw [hroomfields.1, hroomfields.2]
                rw [hS2len] at hstlen
                omega
      · rw [if_neg hroom]
        simp

/-- Concrete TinyLFU state for the C1 counterexample: estimates are
est(9)=1, est(1)=0, est(2)=est(3)=2 (five increments, below the reset
window of 16). -/
def c1Tiny : TinyLFU :=
  (((((TinyLFU.new 16).increment 9).increment 2).increment 2).increment 3).increment 3

/-- Concrete cost set for the C1 counterexample: `max_cost = 4`, entries
(1,2), (2,2), (3,2), `used = 6`. -/
def c1Costs : SampledLFU :=
  (((SampledLFU.new 4).increment 1 2).increment 2 2).increment 3 2

/-- Policy state for the C1 counterexample. -/
def c1Inner : PolicyInner := PolicyInner.mk c1Tiny c1Costs

/-- C1: the claim is right and the code is wrong.  On `add(9, 1)` from
`c1Inner` the eviction loop first evicts key 1 (estimate 0 ≤ inc_hits 1) and
then hits the rejection branch (inc_hits 1 < 2): the call has already
removed key 1 from the cost set (`lookupKC` returns `none`, `used` dropped
to 6 after the `room_left` side effect and the eviction), emits
`RejectSets`, yet returns `(None, false)` — the victims are discarded,
where the spec (§4.5 step 5c) requires `(Some[(1, 2)], false)`. -/
theorem add_reject_discards_victims :
    (LFUPolicy.add c1Inner 9 1).map
        (fun r => (r.1, r.2.2, lookupKC 1 r.2.1.costs.key_costs, r.2.1.costs.used)) =
      some ((none, false), [MetricEvent.mk MetricType.RejectSets 9 1], none, 6) := by
  decide

/-- Cost set for the C2 counterexample, the spec's own S7 scenario:
`max_cost = 16`, entries (1,1), (2,2), (3,3), `used = 6`. -/
def c2State : SampledLFU :=
  (((SampledLFU.new 16).increment 1 1).increment 2 2).increment 3 3

/-- C2: the claim is right and the code is wrong.  `room_left(4)` does
return `max_cost - (used + 4) = 6` as claimed, but the `fetch_add` in the
source adds the probed cost to `used` as a side effect: `used` is 6 before
the call and 10 after it, so the call is not mutation-free. -/
theorem room_left_mutates_used :
    (c2State.room_left 4).1 = 6 ∧ c2State.used = 6 ∧ (c2State.room_left 4).2.used = 10 := by
  decide

/-- Freshly constructed policy with `max_cost = 16` for the C3 counterexample. -/
def c3Inner : PolicyInner := PolicyInner.mk (TinyLFU.new 16) (SampledLFU.new 16)

/-- C3: the claim is right and the code is wrong.  A single `add(1, 4)` on a
fresh policy admits the item (returns `(None, true)`), but the `fetch_add`
side effect of `room_left` double-counts the cost: afterwards `used = 8`
while the key→cost map holds exactly `[(1, 4)]`, whose cost sum is 4. -/
theorem add_breaks_used_invariant :
    (LFUPolicy.add c3Inner 1 4).map
        (fun r => (r.1, r.2.1.costs.used, sumCosts r.2.1.costs.key_costs)) =
      some ((none, true), 8, 4) := by
  decide

/-- C4 counterexample: `contains_or_add` does not return the prior value of
`contains` — on a doorkeeper already containing key 1 it returns `false`
while `contains` returns `true` (it reports whether the key was newly
added). -/
theorem contains_or_add_not_prior :
    ((Bloom.mk [1]).contains_or_add 1).1 = false ∧ (Bloom.mk [1]).contains 1 = true := by
  decide

/-- C4 (amended): `increment(k)` increments the sketch exactly when the
doorkeeper already contained `k` before the call (leaving the doorkeeper
unchanged), otherwise it only sets `k`'s doorkeeper bits and leaves the
sketch untouched; in both cases `try_reset` is then invoked.
`contains_or_add` returns `true` iff `k` was newly added, i.e. the negation
of the prior `contains(k)`. -/
theorem increment_gates_sketch (t : TinyLFU) (k : Nat) :
    (t.increment k = TinyLFU.try_reset
      (if t.doorkeeper.contains k
       then TinyLFU.mk (t.ctr.increment k) t.doorkeeper t.samples t.w
       else TinyLFU.mk t.ctr (Bloom.mk (k :: t.doorkeeper.keys)) t.samples t.w)) ∧
    (t.doorkeeper.contains_or_add k).1 = !(t.doorkeeper.contains k) := by
  constructor
  · unfold TinyLFU.increment Bloom.contains_or_add
    by_cases h : t.doorkeeper.contains k
    · simp [h]
    · simp [h]
  · unfold Bloom.contains_or_add
    by_cases h : t.doorkeeper.contains k <;> simp [h]

/-- C5: `estimate(k)` is the sketch estimate plus 1 exactly when the
doorkeeper contains `k`, and always lies in `[0, 16]`. -/
theorem estimate_doorkeeper_bonus_and_range (t : TinyLFU) (k : Nat) :
    t.estimate k = t.ctr.estimate k + (if t.doorkeeper.contains k then 1 else 0) ∧
    0 ≤ t.estimate k ∧ t.estimate k ≤ 16 := by
  refine ⟨?_, tiny_estimate_bounds t k⟩
  unfold TinyLFU.estimate
  by_cases h : t.doorkeeper.contains k <;> simp [h]

/-- C6: an item with `cost > max_cost` is rejected as `(None, false)` before
any mutation: the whole policy state (cost set, `used`, TinyLFU) is returned
unchanged and no metric call is made. -/
theorem add_oversize_rejects (inner : PolicyInner) (key : Nat) (cost : Int)
    (h : cost > inner.costs.get_max_cost) :
    LFUPolicy.add inner key cost = some ((none, false), inner, []) := by
  unfold LFUPolicy.add
  rw [if_pos h]

/-- Witness for C6 at the spec's S3 scenario: `max_cost = 4`, `add(7, 5)`. -/
theorem add_oversize_rejects_witness :
    LFUPolicy.add (PolicyInner.mk (TinyLFU.new 4) (SampledLFU.new 4)) 7 5 =
      some ((none, false), PolicyInner.mk (TinyLFU.new 4) (SampledLFU.new 4), []) :=
  add_oversize_rejects (PolicyInner.mk (TinyLFU.new 4) (SampledLFU.new 4)) 7 5 (by decide)

/-- C7: on a non-empty sample buffer the min-scan of the eviction loop
(`scanMin`, the `sample.iter().enumerate()` fold of `LFUPolicy::add`)
selects an actual entry of the buffer whose TinyLFU estimate is minimal,
and every entry strictly before the selected index has a strictly larger
estimate (ties are broken in favor of the first occurrence). -/
theorem eviction_scan_picks_first_min (tlfu : TinyLFU) (sample : List PolicyPair)
    (h : sample ≠ []) :
    (scanMin tlfu sample).min_id < sample.length ∧
    sample.getD (scanMin tlfu sample).min_id (PolicyPair.mk 0 0) =
      PolicyPair.mk (scanMin tlfu sample).min_key (scanMin tlfu sample).min_cost ∧
    (scanMin tlfu sample).min_hits = tlfu.estimate (scanMin tlfu sample).min_key ∧
    (∀ p ∈ sample, (scanMin tlfu sample).min_hits ≤ tlfu.estimate p.key) ∧
    (∀ m, m < (scanMin tlfu sample).min_id →
      (scanMin tlfu sample).min_hits <
        tlfu.estimate (sample.getD m (PolicyPair.mk 0 0)).key) := by
  have hlt : (scanMin tlfu sample).min_hits < i64MAX := by
    rcases scanFrom_spec tlfu sample 0 (MinAcc.mk 0 i64MAX 0 0) with
      ⟨heq, hall⟩ | ⟨j, hj, heq, _, _, _⟩
    · exfalso
      cases sample with
      | nil => exact absurd rfl h
      | cons p rest =>
          have h1 := hall p (List.mem_cons_self p rest)
          have h2 := tiny_estimate_bounds tlfu p.key
          simp only [] at h1
          unfold i64MAX at h1
          omega
    · unfold scanMin
      rw [heq]
      have h2 := tiny_estimate_bounds tlfu ((sample.getD j (PolicyPair.mk 0 0)).key)
      unfold i64MAX
      simp only []
      omega
  rcases scanMin_spec tlfu sample hlt with ⟨j, hj, hid, hkey, hcost, hhits, hall, hfirst⟩
  refine ⟨by omega, ?_, ?_, hall, ?_⟩
  · rw [hid, hkey, hcost]
  · rw [hhits, hkey]
  · intro m hm
    rw [hid] at hm
    exact hfirst m hm

/-- Witness for C7 on the one-entry buffer `[(1, 1)]` with a fresh TinyLFU. -/
theorem eviction_scan_picks_first_min_witness :
    (scanMin (TinyLFU.new 4) [PolicyPair.mk 1 1]).min_id < [PolicyPair.mk 1 1].length ∧
    [PolicyPair.mk 1 1].getD (scanMin (TinyLFU.new 4) [PolicyPair.mk 1 1]).min_id
        (PolicyPair.mk 0 0) =
      PolicyPair.mk (scanMin (TinyLFU.new 4) [PolicyPair.mk 1 1]).min_key
        (scanMin (TinyLFU.new 4) [PolicyPair.mk 1 1]).min_cost ∧
    (scanMin (TinyLFU.new 4) [PolicyPair.mk 1 1]).min_hits =
      (TinyLFU.new 4).estimate (scanMin (TinyLFU.new 4) [PolicyPair.mk 1 1]).min_key ∧
    (∀ p ∈ [PolicyPair.mk 1 1],
      (scanMin (TinyLFU.new 4) [PolicyPair.mk 1 1]).min_hits ≤
        (TinyLFU.new 4).estimate p.key) ∧
    (∀ m, m < (scanMin (TinyLFU.new 4) [PolicyPair.mk 1 1]).min_id →
      (scanMin (TinyLFU.new 4) [PolicyPair.mk 1 1]).min_hits <
        (TinyLFU.new 4).estimate
          ([PolicyPair.mk 1 1].getD m (PolicyPair.mk 0 0)).key) :=
  eviction_scan_picks_first_min (TinyLFU.new 4) [PolicyPair.mk 1 1] (by decide)

/-- C8: on a policy that is not closed, pushing an empty batch is a no-op
returning `Ok(true)`: nothing is handed to the ingestion channel (whatever
its state) and no metric call is made. -/
theorem push_empty_batch_noop (chan : ChanState) :
    LFUPolicy.push false chan [] = (Except.ok true, none, []) := by
  unfold LFUPolicy.push
  simp

/-- C9: `add` always terminates — the fuel `LFUPolicy.add` gives the
eviction loop is sufficient on every input, so the loop never runs out
(an empty sample leaves `min_hits` at its `i64::MAX` seed and forces the
rejection return, and otherwise each iteration shrinks the measure of
`addLoop_isSome`). -/
theorem add_terminates (inner : PolicyInner) (key : Nat) (cost : Int) :
    (LFUPolicy.add inner key cost).isSome = true := by
  unfold LFUPolicy.add
  by_cases h1 : cost > inner.costs.get_max_cost
  · rw [if_pos h1]
    simp
  · rw [if_neg h1]
    by_cases h2 : (inner.costs.update key cost).1
    · rw [if_pos h2]
      simp
    · rw [if_neg h2]
      by_cases h3 : ((inner.costs.update key cost).2.1.room_left cost).1 ≥ 0
      · rw [if_pos h3]
        simp
      · rw [if_neg h3]
        apply addLoop_isSome key cost (inner.admission.estimate key)
          (tiny_estimate_lt_max inner.admission key)
        · simp
        · unfold addFuel
          simp

/-- C10: `remove(k)` on an absent key returns `None` and leaves the whole
cost set (in particular `used` and the key→cost map) unchanged; on a
present key it returns that entry's cost and decrements `used` by exactly
that cost. -/
theorem remove_absent_noop_present_exact (l : SampledLFU) (k : Nat) :
    (lookupKC k l.key_costs = none → l.remove k = (none, l)) ∧
    (∀ c, lookupKC k l.key_costs = some c →
      l.remove k = (some c, SampledLFU.mk l.samples l.max_cost (l.used - c)
        (removeKC k l.key_costs))) := by
  constructor
  · intro h
    unfold SampledLFU.remove
    rw [h]
  · intro c h
    unfold SampledLFU.remove
    rw [h]

/-- Witness for C10: absent key 2 is a no-op, present key 1 is removed with
`used` decremented by its cost. -/
theorem remove_absent_noop_present_exact_witness :
    ((SampledLFU.mk 5 4 3 [(1, 1)]).remove 2 = (none, SampledLFU.mk 5 4 3 [(1, 1)])) ∧
    ((SampledLFU.mk 5 4 3 [(1, 1)]).remove 1 =
      (some 1, SampledLFU.mk 5 4 (3 - 1) (removeKC 1 [(1, 1)]))) :=
  ⟨(remove_absent_noop_present_exact (SampledLFU.mk 5 4 3 [(1, 1)]) 2).1 (by decide),
   (remove_absent_noop_present_exact (SampledLFU.mk 5 4 3 [(1, 1)]) 1).2 1 (by decide)⟩
